import Mathlib

/-!
Verification of a small assembly VM (adv2020_8, src/main.rs).

The program model is a list of three-variant instructions (`nop`, `acc`, `jmp`,
each carrying an `i64` operand, modelled as `Int`).  The execution engine
(`Computer::execute`) runs a program from pointer 0 / accumulator 0, detecting
loops with a visited-index set; the repair search in `main` flips one
`nop`/`jmp` instruction at a time (via `flip_after`) until a candidate halts.

Machine-integer notes: the instruction pointer is a `usize`; the only place its
width matters is the jump `self.program_counter = (self.program_counter as i64 + *n) as usize`,
whose wrapping cast is modelled exactly as `(pc + n) mod 2^64` on integers
(`jmpTarget`).  The accumulator is modelled as an unbounded `Int`.

The Rust `while` loop of `execute` is modelled by `runFuel`, structurally
recursive on a fuel argument; `runFuelSome` proves that fuel
`program.length + 1` always suffices (each iteration inserts a fresh in-range
pointer into the visited set), and `Computer.execute` runs with exactly that
fuel, so the model is total and fuel-free at its interface.  Likewise the
repair-search loop of `main` is modelled by `searchGo` with fuel
`program.length` (the flip cursor strictly increases), and `searchGo_gas_eq`
below shows the result does not depend on the fuel once it is at least
`program.length - cursor`.
-/

/-- The three-variant instruction type of src/main.rs (`Nop`/`Acc`/`Jmp`, each
carrying an `i64` operand). -/
inductive Instruction where
  | Nop : Int → Instruction
  | Acc : Int → Instruction
  | Jmp : Int → Instruction
deriving DecidableEq

/-- `type Program = Vec<Instruction>`. -/
abbrev Program := List Instruction

/-- The operand carried by an instruction. -/
def operandOf : Instruction → Int
  | Instruction.Nop n => n
  | Instruction.Acc n => n
  | Instruction.Jmp n => n

/-- An instruction is flippable when it is a `Nop` or a `Jmp` (the two arms of
the `match` in `flip_after` that return; `Acc` falls to the wildcard arm). -/
def isFlippable : Instruction → Bool
  | Instruction.Acc _ => false
  | _ => true

/-- Is the instruction a `Jmp`. -/
def isJmpI : Instruction → Bool
  | Instruction.Jmp _ => true
  | _ => false

/-- The operand of an `Acc` instruction, `none` otherwise. -/
def accOperand : Instruction → Option Int
  | Instruction.Acc n => some n
  | _ => none

/-- The kind swap performed by `flip_after`: `Nop n ↔ Jmp n`; on `Acc` it is
the identity (that arm is never reached by `flip_after`). -/
def flipInstr : Instruction → Instruction
  | Instruction.Nop n => Instruction.Jmp n
  | Instruction.Jmp n => Instruction.Nop n
  | Instruction.Acc n => Instruction.Acc n

/-- The scan loop `for i in n..new_program.len()` of `flip_after`, modelled by
structural recursion on the remaining suffix `rest = current.drop i`.  At the
first `Nop`/`Jmp` it returns `(i + 1, current.set i (flipped instruction))`;
`Acc` is skipped; when the suffix is exhausted it returns
`(current.length, current)`. -/
def flipFrom (current : Program) (i : Nat) (rest : List Instruction) : Nat × Program :=
  match rest with
  | [] => (current.length, current)
  | Instruction.Nop m :: _ => (i + 1, current.set i (Instruction.Jmp m))
  | Instruction.Jmp m :: _ => (i + 1, current.set i (Instruction.Nop m))
  | Instruction.Acc _ :: rest2 => flipFrom current (i + 1) rest2

/-- `fn flip_after(current: &[Instruction], n: usize) -> (usize, Program)`:
copies the program and flips the first `Nop`/`Jmp` at index ≥ `n`. -/
def flip_after (current : Program) (n : Nat) : Nat × Program :=
  flipFrom current n (current.drop n)

/-- The mutable run state of `struct Computer`. -/
structure Computer where
  program_counter : Nat
  accumulator : Int
deriving DecidableEq

/-- `Computer::new()`. -/
def Computer.new : Computer :=
  { program_counter := 0, accumulator := 0 }

/-- The jump `self.program_counter = (self.program_counter as i64 + *n) as usize`:
two's-complement wrapping of the signed sum into an unsigned 64-bit value. -/
def jmpTarget (pc : Nat) (n : Int) : Nat :=
  (((pc : Int) + n) % 2 ^ 64).toNat

/-- The `while self.program_counter < program.len()` loop of
`Computer::execute`, with an explicit fuel for structural recursion (proved
sufficient at `p.length + 1` by `runFuelSome`).  Returns the final run state
together with the `Result`: `Except.error` is the loop-detected arm
(`Err(self.accumulator)`), `Except.ok` the clean-halt arm
(`Ok(self.accumulator)`). -/
def runFuel (p : Program) (fuel : Nat) (c : Computer) (visited : List Nat) :
    Option (Computer × Except Int Int) :=
  match fuel with
  | 0 => none
  | fuel + 1 =>
    if h : c.program_counter < p.length then
      if c.program_counter ∈ visited then
        some (c, Except.error c.accumulator)
      else
        match p[c.program_counter] with
        | Instruction.Nop _ =>
          runFuel p fuel { c with program_counter := c.program_counter + 1 }
            (c.program_counter :: visited)
        | Instruction.Acc n =>
          runFuel p fuel
            { c with program_counter := c.program_counter + 1,
                     accumulator := c.accumulator + n }
            (c.program_counter :: visited)
        | Instruction.Jmp n =>
          runFuel p fuel { c with program_counter := jmpTarget c.program_counter n }
            (c.program_counter :: visited)
    else
      some (c, Except.ok c.accumulator)

/-- The number of distinct visited indices lying inside `[0, p.length)`:
the termination measure of the `execute` loop. -/
def visitedCard (p : Program) (v : List Nat) : Nat :=
  (v.toFinset.filter (fun x => x < p.length)).card

/-- Inserting a fresh in-range pointer grows the measure by one. -/
def visitedCardCons (p : Program) (v : List Nat) (pc : Nat) (hpc : pc < p.length)
    (hv : pc ∉ v) : visitedCard p (pc :: v) = visitedCard p v + 1 := by
  unfold visitedCard
  rw [List.toFinset_cons, Finset.filter_insert, if_pos hpc,
    Finset.card_insert_of_not_mem]
  intro hmem
  exact hv (List.mem_toFinset.mp (Finset.mem_filter.mp hmem).1)

/-- While a fresh in-range pointer exists, the measure is below `p.length`. -/
def visitedCardLt (p : Program) (v : List Nat) (pc : Nat) (hpc : pc < p.length)
    (hv : pc ∉ v) : visitedCard p v < p.length := by
  have hsub : v.toFinset.filter (fun x => x < p.length) ⊆
      (Finset.range p.length).erase pc := by
    intro x hx
    rcases Finset.mem_filter.mp hx with ⟨hxv, hxlt⟩
    refine Finset.mem_erase.mpr ⟨?_, Finset.mem_range.mpr hxlt⟩
    intro hxe
    exact hv (hxe ▸ List.mem_toFinset.mp hxv)
  have hcard := Finset.card_le_card hsub
  rw [Finset.card_erase_of_mem (Finset.mem_range.mpr hpc), Finset.card_range] at hcard
  unfold visitedCard
  omega

/-- Fuel `p.length - visitedCard p v + 1` (in particular `p.length + 1` from an
empty visited set) always suffices: each loop iteration either returns or
inserts a not-previously-seen in-range pointer. -/
def runFuelSome (p : Program) :
    ∀ (fuel : Nat) (c : Computer) (v : List Nat),
      p.length - visitedCard p v < fuel → (runFuel p fuel c v).isSome = true := by
  intro fuel
  induction fuel with
  | zero => intro c v h; exact absurd h (Nat.not_lt_zero _)
  | succ fuel ih =>
    intro c v h
    simp only [runFuel]
    split
    · split
      · rfl
      · next hpc hv =>
        have hlt := visitedCardLt p v c.program_counter hpc hv
        have hcons := visitedCardCons p v c.program_counter hpc hv
        have hfuel : p.length - visitedCard p (c.program_counter :: v) < fuel := by omega
        split
        · exact ih _ _ hfuel
        · exact ih _ _ hfuel
        · exact ih _ _ hfuel
    · rfl

/-- `Computer::execute`: resets `program_counter` and `accumulator` to 0, makes
a fresh visited set, and runs the loop (with its always-sufficient fuel).  The
receiver state is dead on entry, exactly as in the source. -/
def Computer.execute (_self : Computer) (p : Program) : Computer × Except Int Int :=
  (runFuel p (p.length + 1) { program_counter := 0, accumulator := 0 } []).get
    (runFuelSome p (p.length + 1) { program_counter := 0, accumulator := 0 } []
      (by simp only [visitedCard, List.toFinset_nil, Finset.filter_empty,
            Finset.card_empty]; omega))

/-- The `Result<i64, i64>` returned by one `execute` call from a fresh engine. -/
def execute (p : Program) : Except Int Int :=
  (Computer.new.execute p).2

/-- A sequence of prior `execute` calls on one engine instance, threading the
engine state. -/
def runMany (c : Computer) (ps : List Program) : Computer :=
  ps.foldl (fun st q => (st.execute q).1) c

/-- The repair-search `while new_result.is_err()` loop of `main` (lines
113-121), entered with cursor `n`: recompute `flip_after(&program, n)`, abort
(`panic!("cannot find valid program")`, modelled as `none`) when the returned
next-cursor has reached the program length, otherwise execute the candidate and
either return its accumulator or continue from the returned next-cursor.
`gas` is fuel for structural recursion (the cursor strictly increases, so
`program.length` suffices; see `searchGo_gas_eq`). -/
def searchGo (program : Program) (n : Nat) (gas : Nat) : Option Int :=
  match gas with
  | 0 => none
  | gas + 1 =>
    if (flip_after program n).2.length ≤ (flip_after program n).1 then none
    else
      match (Computer.new.execute (flip_after program n).2).2 with
      | Except.ok a => some a
      | Except.error _ => searchGo program (flip_after program n).1 gas

/-- The repair search of `main` (lines 111-123), after the initial check that
the original program loops: the first candidate `flip_after(&program, 0)` is
executed unconditionally, then the loop `searchGo` takes over.  `some a` models
printing the final result `a`; `none` models the
`panic!("cannot find valid program")` abort. -/
def repairSearch (program : Program) : Option Int :=
  match (Computer.new.execute (flip_after program 0).2).2 with
  | Except.ok a => some a
  | Except.error _ => searchGo program (flip_after program 0).1 program.length

/-- One step of the machine on a run state (the loop body of `execute` without
the bookkeeping); out-of-range pointers are fixed points. -/
def stepC (p : Program) (c : Computer) : Computer :=
  match p[c.program_counter]? with
  | some (Instruction.Nop _) => { c with program_counter := c.program_counter + 1 }
  | some (Instruction.Acc n) =>
    { c with program_counter := c.program_counter + 1,
             accumulator := c.accumulator + n }
  | some (Instruction.Jmp n) => { c with program_counter := jmpTarget c.program_counter n }
  | none => c

/-- The run state after `k` steps from a fresh engine. -/
def stateAt (p : Program) (k : Nat) : Computer :=
  (stepC p)^[k] Computer.new

/-- The instruction pointer after `k` steps. -/
abbrev pcAt (p : Program) (k : Nat) : Nat :=
  (stateAt p k).program_counter

/-- The visited list built by the first `k` iterations of the `execute` loop
(most recent first, as the model conses). -/
def visitedAt (p : Program) (k : Nat) : List Nat :=
  ((List.range k).map (pcAt p)).reverse

/-- The contribution of the instruction at index `i` to the accumulator:
the operand for `Acc`, zero otherwise. -/
def accContrib (p : Program) (i : Nat) : Int :=
  match p[i]? with
  | some (Instruction.Acc n) => n
  | _ => 0

/-- Sum of the `Acc` operands from index `k` on. -/
def sumFrom (p : Program) (k : Nat) : Int :=
  ((p.drop k).filterMap accOperand).sum

/-- The nine-instruction example program of the tests (`TEST_INSTRUCTIONS`):
`nop +0 / acc +1 / jmp +4 / acc +3 / jmp -3 / acc -99 / acc +1 / jmp -4 / acc +6`. -/
def exampleProgram : Program :=
  [Instruction.Nop 0, Instruction.Acc 1, Instruction.Jmp 4, Instruction.Acc 3,
   Instruction.Jmp (-3), Instruction.Acc (-99), Instruction.Acc 1,
   Instruction.Jmp (-4), Instruction.Acc 6]

/-- C5: on the nine-instruction example program, direct execution returns the
loop-detected failure arm with accumulator 5; `flip_after` from index 7 flips
the `jmp -4` at index 7 to `nop -4` (next-cursor 8); that candidate halts
cleanly with accumulator 8; and the repair search returns 8. -/
theorem example_program_behavior :
    execute exampleProgram = Except.error 5
    ∧ flip_after exampleProgram 7 = (8, exampleProgram.set 7 (Instruction.Nop (-4)))
    ∧ execute (exampleProgram.set 7 (Instruction.Nop (-4))) = Except.ok 8
    ∧ repairSearch exampleProgram = some 8 :=
  ⟨rfl, rfl, rfl, rfl⟩

/-- C1: on the program `[nop +0, acc +1, jmp -2]` the original execution loops
(failure arm, accumulator 1); `flip_after` from cursor 2 produces the candidate
flipping the `jmp -2` at index 2 = length - 1 with next-cursor 3 = length; that
candidate halts cleanly with accumulator 1; yet the repair search aborts as
exhausted (the `n >= new_program.len()` check fires before the candidate is
executed), contradicting the claim that such a candidate is still executed. -/
theorem repair_search_last_candidate :
    execute [Instruction.Nop 0, Instruction.Acc 1, Instruction.Jmp (-2)] = Except.error 1
    ∧ flip_after [Instruction.Nop 0, Instruction.Acc 1, Instruction.Jmp (-2)] 2
        = (3, [Instruction.Nop 0, Instruction.Acc 1, Instruction.Nop (-2)])
    ∧ execute [Instruction.Nop 0, Instruction.Acc 1, Instruction.Nop (-2)] = Except.ok 1
    ∧ repairSearch [Instruction.Nop 0, Instruction.Acc 1, Instruction.Jmp (-2)] = none :=
  ⟨rfl, rfl, rfl, rfl⟩

/-- C2 counterexample: a jump past the end (`jmp +5` from index 0 of a
one-instruction program sets the pointer to 5 ≠ length 1) and a jump below
zero (`jmp -1` wraps through the `as usize` cast to `2^64 - 1`) are both
reported as a successful clean halt, not as a fatal internal error. -/
theorem execute_past_end_counterexample :
    execute [Instruction.Jmp 5] = Except.ok 0
    ∧ jmpTarget 0 5 = 5
    ∧ (5 : Nat) ≠ [Instruction.Jmp 5].length
    ∧ execute [Instruction.Jmp (-1)] = Except.ok 0
    ∧ jmpTarget 0 (-1) = 2 ^ 64 - 1 :=
  ⟨rfl, rfl, by decide, rfl, by decide⟩

/-- C9: `execute` is insensitive to engine history: the pointer and accumulator
are overwritten with 0 at the start of every call and the visited set is a
fresh local, so running on an engine that has performed any prior sequence of
`execute` calls gives the same state and result as a fresh engine. -/
theorem execute_history_insensitive (c : Computer) (ps : List Program) (p : Program) :
    (runMany c ps).execute p = Computer.new.execute p :=
  rfl

theorem flipInstr_flipInstr (x : Instruction) : flipInstr (flipInstr x) = x := by
  cases x <;> rfl

theorem flipInstr_flippable (x : Instruction) : isFlippable (flipInstr x) = isFlippable x := by
  cases x <;> rfl

theorem flipInstr_operand (x : Instruction) : operandOf (flipInstr x) = operandOf x := by
  cases x <;> rfl

theorem flipFrom_length (p : Program) :
    ∀ (rest : List Instruction) (i : Nat), ((flipFrom p i rest).2).length = p.length := by
  intro rest
  induction rest with
  | nil => intro i; rfl
  | cons x rest2 ih =>
    intro i
    cases x with
    | Nop m => simp [flipFrom]
    | Jmp m => simp [flipFrom]
    | Acc m => exact ih (i + 1)

theorem flipFrom_fst (p : Program) :
    ∀ (rest : List Instruction) (i : Nat),
      (flipFrom p i rest).1 = p.length ∨ i < (flipFrom p i rest).1 := by
  intro rest
  induction rest with
  | nil => intro i; exact Or.inl rfl
  | cons x rest2 ih =>
    intro i
    cases x with
    | Nop m => exact Or.inr (Nat.lt_succ_self i)
    | Jmp m => exact Or.inr (Nat.lt_succ_self i)
    | Acc m =>
      rcases ih (i + 1) with h | h
      · exact Or.inl h
      · exact Or.inr (Nat.lt_of_succ_lt h)

/-- Characterization of the scan: either it finds a first flippable
instruction at some `j ≥ i` and returns `(j + 1, set j (flipped))`, or there is
none and it returns `(p.length, p)`. -/
theorem flipFrom_cases (p : Program) :
    ∀ (rest : List Instruction) (i : Nat), rest = p.drop i →
      (∃ j, i ≤ j ∧ ∃ (hj : j < p.length), isFlippable p[j] = true ∧
        (∀ m, (hm : m < p.length) → i ≤ m → m < j → isFlippable p[m] = false) ∧
        flipFrom p i rest = (j + 1, p.set j (flipInstr p[j])))
      ∨ ((∀ m, (hm : m < p.length) → i ≤ m → isFlippable p[m] = false) ∧
        flipFrom p i rest = (p.length, p)) := by
  intro rest
  induction rest with
  | nil =>
    intro i hdrop
    refine Or.inr ⟨?_, rfl⟩
    intro m hm him
    have hle : p.length ≤ i := List.drop_eq_nil_iff.mp hdrop.symm
    exact absurd hm (by omega)
  | cons x rest2 ih =>
    intro i hdrop
    have hx : p[i]? = some x := by
      have h0 : (p.drop i)[0]? = p[i + 0]? := List.getElem?_drop p i 0
      rw [← hdrop] at h0
      simpa using h0.symm
    obtain ⟨hi, hgete⟩ := List.getElem?_eq_some_iff.mp hx
    have hrest2 : rest2 = p.drop (i + 1) := by
      rw [← List.tail_drop, ← hdrop]
      rfl
    cases x with
    | Nop m =>
      refine Or.inl ⟨i, Nat.le_refl i, hi, ?_, ?_, ?_⟩
      · rw [hgete]; rfl
      · intro m2 hm2 him2 hmi2
        exact absurd hmi2 (Nat.not_lt.mpr him2)
      · show (i + 1, p.set i (Instruction.Jmp m)) = (i + 1, p.set i (flipInstr p[i]))
        rw [hgete]
        rfl
    | Jmp m =>
      refine Or.inl ⟨i, Nat.le_refl i, hi, ?_, ?_, ?_⟩
      · rw [hgete]; rfl
      · intro m2 hm2 him2 hmi2
        exact absurd hmi2 (Nat.not_lt.mpr him2)
      · show (i + 1, p.set i (Instruction.Nop m)) = (i + 1, p.set i (flipInstr p[i]))
        rw [hgete]
        rfl
    | Acc m =>
      rcases ih (i + 1) hrest2 with ⟨j, hij, hj, hflip, hmin, heq⟩ | ⟨hall, heq⟩
      · refine Or.inl ⟨j, by omega, hj, hflip, ?_, heq⟩
        intro m2 hm2 him2 hm2j
        rcases Nat.eq_or_lt_of_le him2 with heq2 | hlt2
        · subst heq2
          rw [hgete]; rfl
        · exact hmin m2 hm2 hlt2 hm2j
      · refine Or.inr ⟨?_, heq⟩
        intro m2 hm2 him2
        rcases Nat.eq_or_lt_of_le him2 with heq2 | hlt2
        · subst heq2
          rw [hgete]; rfl
        · exact hall m2 hm2 hlt2

/-- Case analysis for `flip_after p k`: either a first flippable instruction
exists at some `j ≥ k` (and the result is `(j + 1, p.set j (flipInstr p[j]))`),
or none exists (and the result is `(p.length, p)`). -/
theorem flip_after_cases (p : Program) (k : Nat) :
    (∃ j, k ≤ j ∧ ∃ (hj : j < p.length), isFlippable p[j] = true ∧
      (∀ m, (hm : m < p.length) → k ≤ m → m < j → isFlippable p[m] = false) ∧
      flip_after p k = (j + 1, p.set j (flipInstr p[j])))
    ∨ ((∀ m, (hm : m < p.length) → k ≤ m → isFlippable p[m] = false) ∧
      flip_after p k = (p.length, p)) :=
  flipFrom_cases p (p.drop k) k rfl

/-- C6: `flip_after p k` scans from `k` upward skipping every `Acc`; if the
first `Nop`/`Jmp` at or after `k` sits at index `i`, it returns
`(i + 1, p.set i (flipInstr p[i]))` (kind swapped, operand preserved); if no
`Nop`/`Jmp` exists at or after `k`, it returns `(p.length, p)`. -/
theorem flip_after_spec (p : Program) (k : Nat) :
    (∀ i, (hi : i < p.length) → k ≤ i → isFlippable p[i] = true →
      (∀ j, (hj : j < p.length) → k ≤ j → j < i → isFlippable p[j] = false) →
      flip_after p k = (i + 1, p.set i (flipInstr p[i])))
    ∧ ((∀ i, (hi : i < p.length) → k ≤ i → isFlippable p[i] = false) →
      flip_after p k = (p.length, p)) := by
  constructor
  · intro i hi hk hflip hmin
    rcases flip_after_cases p k with ⟨j, hkj, hj, hflipj, hminj, heq⟩ | ⟨hall, heq⟩
    · have hji : j = i := by
        rcases Nat.lt_trichotomy j i with h | h | h
        · exact absurd hflipj (by simp [hmin j hj hkj h])
        · exact h
        · exact absurd hflip (by simp [hminj i hi hk h])
      subst hji
      exact heq
    · exact absurd hflip (by simp [hall i hi hk])
  · intro hnone
    rcases flip_after_cases p k with ⟨j, hkj, hj, hflipj, _, _⟩ | ⟨_, heq⟩
    · exact absurd hflipj (by simp [hnone j hj hkj])
    · exact heq

/-- C6 witness: on `[acc +1, jmp +2]` from cursor 0, the `Acc` at index 0 is
skipped and the `Jmp` at index 1 is flipped, with next-cursor 2. -/
theorem flip_after_spec_witness :
    flip_after [Instruction.Acc 1, Instruction.Jmp 2] 0
      = (2, [Instruction.Acc 1, Instruction.Nop 2]) :=
  (flip_after_spec [Instruction.Acc 1, Instruction.Jmp 2] 0).1 1 (by decide) (by decide)
    (by decide) (by decide)

/-- C7: if `flip_after p k` flipped the instruction at index `i` (witnessed by
the result `(i + 1, q)` with `q` actually differing from `p` at `i`), then
flipping the result again from start index `i` restores the original
instruction at index `i`. -/
theorem flip_after_double_flip (p q : Program) (k i : Nat)
    (h : flip_after p k = (i + 1, q)) (hne : p[i]? ≠ q[i]?) :
    ((flip_after q i).2)[i]? = p[i]? := by
  rcases flip_after_cases p k with ⟨j, hkj, hj, hflipj, hminj, heq⟩ | ⟨hall, heq⟩
  · rw [heq] at h
    have hji : j = i := by
      have h1 := congrArg Prod.fst h
      simpa using h1
    subst hji
    have hq : q = p.set j (flipInstr p[j]) := by
      have h2 := congrArg Prod.snd h
      simpa using h2.symm
    subst hq
    have hjq : j < (p.set j (flipInstr p[j])).length := by
      rw [List.length_set]; exact hj
    have hgq : (p.set j (flipInstr p[j]))[j] = flipInstr p[j] := List.getElem_set_self hjq
    have hflipq : isFlippable (p.set j (flipInstr p[j]))[j] = true := by
      rw [hgq, flipInstr_flippable]; exact hflipj
    rcases flip_after_cases (p.set j (flipInstr p[j])) j with
      ⟨j2, hj2ge, hj2, hflip2, hmin2, heq2⟩ | ⟨hall2, _⟩
    · have hj2j : j2 = j := by
        rcases Nat.lt_trichotomy j2 j with h3 | h3 | h3
        · omega
        · exact h3
        · have hc := hmin2 j hjq (Nat.le_refl j) h3
          rw [hgq, flipInstr_flippable, hflipj] at hc
          exact absurd hc (by decide)
      subst hj2j
      rw [heq2, List.getElem?_set_self hj2, hgq, flipInstr_flipInstr,
        List.getElem?_eq_getElem hj]
    · have hc := hall2 j hjq (Nat.le_refl j)
      rw [hgq, flipInstr_flippable, hflipj] at hc
      exact absurd hc (by decide)
  · rw [heq] at h
    have hpq : p = q := congrArg Prod.snd h
    subst hpq
    exact absurd rfl hne

/-- C7 witness: flipping `[jmp +3]` at index 0 gives `[nop +3]`; flipping that
again from index 0 restores a `jmp +3` at index 0. -/
theorem flip_after_double_flip_witness :
    ((flip_after [Instruction.Nop 3] 0).2)[0]? = [Instruction.Jmp 3][0]? :=
  flip_after_double_flip [Instruction.Jmp 3] [Instruction.Nop 3] 0 0 rfl (by decide)

/-- C8: `flip_after` is pure and frame-preserving: the returned program has the
same length as the input, agrees with the input at every index other than the
flipped one (`returned cursor - 1`), and preserves every instruction operand
(so a candidate differs from the original in at most one instruction kind and
never in an operand).  Candidates in `searchGo`/`repairSearch` are all of the
form `flip_after program n` applied to the pristine original, so flips are
never cumulative. -/
theorem flip_after_frame (p : Program) (k : Nat) :
    ((flip_after p k).2).length = p.length
    ∧ (∀ j : Nat, j ≠ (flip_after p k).1 - 1 → ((flip_after p k).2)[j]? = p[j]?)
    ∧ (∀ j : Nat, (((flip_after p k).2)[j]?).map operandOf = (p[j]?).map operandOf) := by
  rcases flip_after_cases p k with ⟨i, hki, hi, hflip, hmin, heq⟩ | ⟨hall, heq⟩
  · rw [heq]
    refine ⟨List.length_set .., ?_, ?_⟩
    · intro j hj
      have hji : j ≠ i := hj
      exact List.getElem?_set_ne (Ne.symm hji)
    · intro j
      by_cases hji : j = i
      · subst hji
        rw [List.getElem?_set_self hi, List.getElem?_eq_getElem hi]
        simp [flipInstr_operand]
      · rw [List.getElem?_set_ne (Ne.symm hji)]
  · rw [heq]
    exact ⟨rfl, fun j hj => rfl, fun j => rfl⟩

/-- C8 witness: flipping `[nop +1, jmp +2]` from cursor 0 flips index 0, and
the result agrees with the original at index 1. -/
theorem flip_after_frame_witness :
    ((flip_after [Instruction.Nop 1, Instruction.Jmp 2] 0).2)[1]? =
      [Instruction.Nop 1, Instruction.Jmp 2][1]? :=
  (flip_after_frame [Instruction.Nop 1, Instruction.Jmp 2] 0).2.1 1 (by decide)

/-- Bridge: `execute` is the value of `runFuel` at fuel `p.length + 1`. -/
theorem computer_execute_eq (c : Computer) (p : Program) (r : Computer × Except Int Int)
    (h : runFuel p (p.length + 1) ⟨0, 0⟩ [] = some r) : c.execute p = r :=
  Option.get_of_mem _ h

/-- Inversion: a clean-halt result can only arise from the loop exit, i.e. with
the final pointer at or past the program length, carrying the final
accumulator. -/
theorem runFuel_ok_inv (p : Program) :
    ∀ (fuel : Nat) (c : Computer) (v : List Nat) (c2 : Computer) (a : Int),
      runFuel p fuel c v = some (c2, Except.ok a) →
      p.length ≤ c2.program_counter ∧ a = c2.accumulator := by
  intro fuel
  induction fuel with
  | zero => intro c v c2 a h; simp [runFuel] at h
  | succ fuel ih =>
    intro c v c2 a h
    simp only [runFuel] at h
    split at h
    · split at h
      · simp at h
      · split at h
        · exact ih _ _ _ _ h
        · exact ih _ _ _ _ h
        · exact ih _ _ _ _ h
    · next hpc =>
      simp only [Option.some.injEq, Prod.mk.injEq, Except.ok.injEq] at h
      obtain ⟨h1, h2⟩ := h
      subst h1
      exact ⟨Nat.le_of_not_lt hpc, h2.symm⟩

/-- C2 (amended): the clean-halt arm occurs exactly when the instruction
pointer is at or past the program length — the loop exits with success for any
such pointer (not only `length` exactly), and conversely a success result
always carries a final pointer ≥ length together with its accumulator; no
fatal out-of-range error exists in the loop. -/
theorem execute_ok_iff_pointer_past_end (p : Program) (fuel : Nat) (c c2 : Computer)
    (v : List Nat) (a : Int) :
    (p.length ≤ c.program_counter →
      runFuel p (fuel + 1) c v = some (c, Except.ok c.accumulator))
    ∧ (runFuel p fuel c v = some (c2, Except.ok a) →
      p.length ≤ c2.program_counter ∧ a = c2.accumulator) := by
  constructor
  · intro h
    simp only [runFuel]
    rw [dif_neg (Nat.not_lt.mpr h)]
  · exact runFuel_ok_inv p fuel c v c2 a

/-- C2 witness: with the pointer already at 5 ≥ 1, the loop exits at once as a
clean halt carrying the accumulator 7. -/
theorem execute_ok_iff_pointer_past_end_witness :
    runFuel [Instruction.Acc 3] 2 ⟨5, 7⟩ [] = some (⟨5, 7⟩, Except.ok 7) :=
  (execute_ok_iff_pointer_past_end [Instruction.Acc 3] 1 ⟨5, 7⟩ ⟨5, 7⟩ [] 7).1 (by decide)

theorem sumFrom_not_acc (p : Program) (k : Nat) (hk : k < p.length)
    (h : accOperand p[k] = none) : sumFrom p k = sumFrom p (k + 1) := by
  unfold sumFrom
  rw [List.drop_eq_getElem_cons hk, List.filterMap_cons, h]

theorem sumFrom_acc (p : Program) (k : Nat) (hk : k < p.length) (n : Int)
    (h : accOperand p[k] = some n) : sumFrom p k = n + sumFrom p (k + 1) := by
  unfold sumFrom
  rw [List.drop_eq_getElem_cons hk, List.filterMap_cons, h]
  show (n :: List.filterMap accOperand (List.drop (k + 1) p)).sum
      = n + (List.filterMap accOperand (List.drop (k + 1) p)).sum
  rw [List.sum_cons]

/-- On a jump-free program the pointer only ever increments, so the loop walks
straight off the end, accumulating exactly the remaining `Acc` operands. -/
theorem runFuel_no_jmp (p : Program) (hnj : ∀ inst ∈ p, isJmpI inst = false) :
    ∀ (fuel k : Nat) (acc : Int) (v : List Nat),
      (∀ x ∈ v, x < k) → k ≤ p.length → p.length - k < fuel →
      runFuel p fuel ⟨k, acc⟩ v =
        some (⟨p.length, acc + sumFrom p k⟩, Except.ok (acc + sumFrom p k)) := by
  intro fuel
  induction fuel with
  | zero => intro k acc v hv hk h; exact absurd h (Nat.not_lt_zero _)
  | succ fuel ih =>
    intro k acc v hv hk hfuel
    simp only [runFuel]
    split
    · next hpc =>
      have hpc2 : k < p.length := hpc
      have hmem : (⟨k, acc⟩ : Computer).program_counter ∉ v := by
        intro hm
        exact absurd (hv _ hm) (Nat.lt_irrefl k)
      rw [if_neg hmem]
      have h1 : ∀ x ∈ k :: v, x < k + 1 := by
        intro x hx
        rcases List.mem_cons.mp hx with h | h
        · omega
        · have := hv x h; omega
      have h2 : k + 1 ≤ p.length := hpc2
      have h3 : p.length - (k + 1) < fuel := by omega
      split
      · next m heq =>
        rw [sumFrom_not_acc p k hpc2 (by rw [heq]; rfl)]
        exact ih (k + 1) acc (k :: v) h1 h2 h3
      · next n heq =>
        rw [sumFrom_acc p k hpc2 n (by rw [heq]; rfl)]
        have hadd : acc + (n + sumFrom p (k + 1)) = acc + n + sumFrom p (k + 1) := by ring
        rw [hadd]
        exact ih (k + 1) (acc + n) (k :: v) h1 h2 h3
      · next n heq =>
        have hj := hnj (p[k]) (List.getElem_mem hpc2)
        rw [heq] at hj
        simp [isJmpI] at hj
    · next hpc =>
      have hk2 : ¬ (k < p.length) := hpc
      have hk3 : k = p.length := by omega
      subst hk3
      simp [sumFrom, List.drop_length]

/-- C4: on a program with no `Jmp` instruction, `execute` halts cleanly with
accumulator equal to the sum of all `Acc` operands. -/
theorem execute_no_jump (p : Program) (hnj : ∀ inst ∈ p, isJmpI inst = false) :
    execute p = Except.ok ((p.filterMap accOperand).sum) := by
  have hrun := runFuel_no_jmp p hnj (p.length + 1) 0 0 []
    (by intro x hx; simp at hx) (Nat.zero_le _) (by omega)
  have hsum : sumFrom p 0 = (p.filterMap accOperand).sum := by simp [sumFrom]
  rw [hsum] at hrun
  have hexec := computer_execute_eq Computer.new p _ hrun
  unfold execute
  rw [hexec]
  simp

/-- C4 witness: `[acc +2, nop +0, acc +3]` has no jump and halts cleanly with
accumulator 5 = 2 + 3. -/
theorem execute_no_jump_witness :
    execute [Instruction.Acc 2, Instruction.Nop 0, Instruction.Acc 3] = Except.ok 5 := by
  have h := execute_no_jump [Instruction.Acc 2, Instruction.Nop 0, Instruction.Acc 3]
    (by decide)
  simpa using h

/-- C10: `execute` terminates on every program within `program.length + 1` loop
iterations: each iteration either returns or inserts a not-previously-seen
in-range pointer into the visited set, so fuel `p.length + 1` never runs out
(from the empty visited set `Computer.execute` starts with). -/
theorem execute_always_terminates (p : Program) (c : Computer) :
    (runFuel p (p.length + 1) c []).isSome = true :=
  runFuelSome p (p.length + 1) c []
    (by simp only [visitedCard, List.toFinset_nil, Finset.filter_empty,
          Finset.card_empty]; omega)

theorem stateAt_succ (p : Program) (k : Nat) :
    stateAt p (k + 1) = stepC p (stateAt p k) :=
  Function.iterate_succ_apply' (stepC p) k Computer.new

theorem visitedAt_succ (p : Program) (k : Nat) :
    visitedAt p (k + 1) = pcAt p k :: visitedAt p k := by
  unfold visitedAt
  rw [List.range_succ, List.map_append, List.reverse_append]
  rfl

theorem mem_visitedAt (p : Program) (k x : Nat) :
    x ∈ visitedAt p k ↔ ∃ j, j < k ∧ pcAt p j = x := by
  unfold visitedAt
  simp [List.mem_reverse, List.mem_map, List.mem_range]

/-- The accumulator after `k` steps is the sum of the `Acc` operands at the
pointers executed so far. -/
theorem accumulator_eq_sum (p : Program) (k : Nat) :
    (stateAt p k).accumulator = (Finset.range k).sum (fun j => accContrib p (pcAt p j)) := by
  induction k with
  | zero => simp [stateAt, Computer.new]
  | succ k ih =>
    rw [Finset.sum_range_succ, ← ih, stateAt_succ]
    unfold stepC accContrib
    cases hx : p[(stateAt p k).program_counter]? with
    | none => simp
    | some inst => cases inst <;> simp

/-- One unfolding of the loop at trace position `k` lands at trace position
`k + 1`. -/
theorem runFuel_step (p : Program) (fuel k : Nat) (hpc : pcAt p k < p.length)
    (hv : pcAt p k ∉ visitedAt p k) :
    runFuel p (fuel + 1) (stateAt p k) (visitedAt p k) =
      runFuel p fuel (stateAt p (k + 1)) (visitedAt p (k + 1)) := by
  rw [stateAt_succ, visitedAt_succ]
  simp only [runFuel]
  rw [dif_pos hpc, if_neg hv]
  unfold stepC
  cases hx : p[(stateAt p k).program_counter] with
  | Nop m => rw [List.getElem?_eq_getElem hpc, hx]
  | Acc n => rw [List.getElem?_eq_getElem hpc, hx]
  | Jmp n => rw [List.getElem?_eq_getElem hpc, hx]

/-- A loop-detected result starting from trace position `k` (with the first `k`
pointers in range and pairwise distinct) yields a trace position `m` at which
the first revisit happens, carrying the accumulator of that state. -/
theorem runFuel_error_trace (p : Program) :
    ∀ (fuel k : Nat) (c2 : Computer) (a : Int),
      runFuel p fuel (stateAt p k) (visitedAt p k) = some (c2, Except.error a) →
      (∀ j, j < k → pcAt p j < p.length) →
      (∀ i j, i < j → j < k → pcAt p i ≠ pcAt p j) →
      ∃ m, (∀ j, j < m → pcAt p j < p.length) ∧
        (∀ i j, i < j → j < m → pcAt p i ≠ pcAt p j) ∧
        (∃ j, j < m ∧ pcAt p j = pcAt p m) ∧
        c2 = stateAt p m ∧ a = (stateAt p m).accumulator := by
  intro fuel
  induction fuel with
  | zero => intro k c2 a h hin hdist; simp [runFuel] at h
  | succ fuel ih =>
    intro k c2 a h hin hdist
    by_cases hpc : pcAt p k < p.length
    · by_cases hv : pcAt p k ∈ visitedAt p k
      · simp only [runFuel] at h
        rw [dif_pos hpc, if_pos hv] at h
        simp only [Option.some.injEq, Prod.mk.injEq, Except.error.injEq] at h
        obtain ⟨h1, h2⟩ := h
        refine ⟨k, hin, hdist, ?_, h1.symm, h2.symm⟩
        exact (mem_visitedAt p k _).mp hv
      · rw [runFuel_step p fuel k hpc hv] at h
        refine ih (k + 1) c2 a h ?_ ?_
        · intro j hj
          rcases Nat.lt_succ_iff_lt_or_eq.mp hj with h3 | h3
          · exact hin j h3
          · subst h3; exact hpc
        · intro i j hij hjk
          rcases Nat.lt_succ_iff_lt_or_eq.mp hjk with h3 | h3
          · exact hdist i j hij h3
          · subst h3
            intro hcontra
            exact hv ((mem_visitedAt p j _).mpr ⟨i, hij, hcontra⟩)
    · simp only [runFuel] at h
      rw [dif_neg hpc] at h
      simp at h

/-- C3: whenever `execute` detects a loop, the halt happens at the first
revisited index — after `k` steps whose pointers are all in range and pairwise
distinct, the step-`k` pointer equals one of the earlier pointers — and the
carried accumulator equals the sum of the `Acc` operands of the instructions
executed up to but not including that second visit. -/
theorem execute_loop_first_revisit (p : Program) (a : Int)
    (h : execute p = Except.error a) :
    ∃ k, (∀ j, j < k → pcAt p j < p.length) ∧
      (∀ i j, i < j → j < k → pcAt p i ≠ pcAt p j) ∧
      (∃ j, j < k ∧ pcAt p j = pcAt p k) ∧
      (Computer.new.execute p).1 = stateAt p k ∧
      a = (Finset.range k).sum (fun j => accContrib p (pcAt p j)) := by
  have hpair : Computer.new.execute p = ((Computer.new.execute p).1, Except.error a) := by
    rw [← h]
    rfl
  have hsome : runFuel p (p.length + 1) ⟨0, 0⟩ [] =
      some ((Computer.new.execute p).1, Except.error a) := by
    rw [← hpair]
    exact (Option.some_get _).symm
  have hmain := runFuel_error_trace p (p.length + 1) 0 ((Computer.new.execute p).1) a
    hsome (fun j hj => absurd hj (Nat.not_lt_zero j))
    (fun i j hij hj => absurd hj (Nat.not_lt_zero j))
  obtain ⟨m, h1, h2, h3, h4, h5⟩ := hmain
  refine ⟨m, h1, h2, h3, h4, ?_⟩
  rw [h5]
  exact accumulator_eq_sum p m

/-- C3 witness: `[jmp +0]` loops immediately, revisiting index 0 at step 1 with
accumulator 0. -/
theorem execute_loop_first_revisit_witness :
    ∃ k, (∀ j, j < k → pcAt [Instruction.Jmp 0] j < [Instruction.Jmp 0].length) ∧
      (∀ i j, i < j → j < k →
        pcAt [Instruction.Jmp 0] i ≠ pcAt [Instruction.Jmp 0] j) ∧
      (∃ j, j < k ∧ pcAt [Instruction.Jmp 0] j = pcAt [Instruction.Jmp 0] k) ∧
      (Computer.new.execute [Instruction.Jmp 0]).1 = stateAt [Instruction.Jmp 0] k ∧
      (0 : Int) = (Finset.range k).sum
        (fun j => accContrib [Instruction.Jmp 0] (pcAt [Instruction.Jmp 0] j)) :=
  execute_loop_first_revisit [Instruction.Jmp 0] 0 rfl

theorem flip_after_stop (p : Program) (n : Nat) (hn : p.length ≤ n) :
    flip_after p n = (p.length, p) := by
  unfold flip_after
  rw [List.drop_eq_nil_of_le hn]
  rfl

theorem searchGo_stop (p : Program) (n : Nat) (hn : p.length ≤ n) :
    ∀ gas, searchGo p n gas = none := by
  intro gas
  cases gas with
  | zero => rfl
  | succ gas =>
    simp only [searchGo]
    rw [flip_after_stop p n hn]
    simp

/-- The fuel of `searchGo` is immaterial once it is at least
`p.length - cursor`: the model computes exactly what the unbounded `while`
loop of `main` computes. -/
theorem searchGo_gas_eq (p : Program) :
    ∀ (g1 g2 n : Nat), p.length - n ≤ g1 → p.length - n ≤ g2 →
      searchGo p n g1 = searchGo p n g2 := by
  intro g1
  induction g1 with
  | zero =>
    intro g2 n h1 h2
    have hn : p.length ≤ n := by omega
    rw [searchGo_stop p n hn 0, searchGo_stop p n hn g2]
  | succ g1 ih =>
    intro g2 n h1 h2
    cases g2 with
    | zero =>
      have hn : p.length ≤ n := by omega
      rw [searchGo_stop p n hn (g1 + 1), searchGo_stop p n hn 0]
    | succ g2 =>
      simp only [searchGo]
      by_cases hc : (flip_after p n).2.length ≤ (flip_after p n).1
      · rw [if_pos hc, if_pos hc]
      · rw [if_neg hc, if_neg hc]
        cases hres : (Computer.new.execute (flip_after p n).2).2 with
        | ok a => rfl
        | error e =>
          have hlen : ((flip_after p n).2).length = p.length := flipFrom_length p (p.drop n) n
          have hfst : (flip_after p n).1 = p.length ∨ n < (flip_after p n).1 :=
            flipFrom_fst p (p.drop n) n
          apply ih
          · omega
          · omega
